import Mathlib

/-!
# Verification of the chaosCamp genetic-algorithm string search

Shallow embedding of the GA engine (`GuessEvaluator`, `GA` and its
operators) from `h1.cpp`.  Machine integers are modelled as `ℕ`/`ℤ`,
`float` fitness values as `ℚ`, and the `std::mt19937` generator as an
abstract stream of raw draws `ℕ → ℕ` together with an explicit cursor:
every call of a distribution object consumes one raw draw and advances
the cursor, mirroring the strictly sequential draw order of the C++
code.  A `uniform_int_distribution(lo, hi)` applied to a raw draw `v`
yields `lo + v % (hi - lo + 1)`, which reaches exactly the values of
`[lo, hi]` when the range is non-empty.
-/

/-- The raw output stream of the seeded pseudo-random generator. -/
abbrev RStream : Type := Nat → Nat

/-- `std::uniform_int_distribution<int>(lo, hi)` on naturals: one raw draw
`v` is mapped into `[lo, hi]`. -/
def unifNat (lo hi v : Nat) : Nat := lo + v % (hi - lo + 1)

/-- `std::uniform_int_distribution<int>(lo, hi)` on integers (used for the
length-delta range of `Mutate`, whose lower bound can be negative). -/
def unifInt (lo hi : Int) (v : Nat) : Int := lo + (v : Int) % (hi - lo + 1)

/-- `std::uniform_real_distribution<float>(0, 1)`: one raw draw mapped to a
rational in `[0, 1)`. -/
def realOf (v : Nat) : ℚ := mkRat ((v % 4294967296 : Nat) : Int) 4294967296

/-- `GA::Individual`: a candidate string plus its cached fitness,
`-1` before the first evaluation. -/
structure Individual where
  data : List Char
  diff : ℚ := -1
deriving DecidableEq, Repr

instance : Inhabited Individual := ⟨⟨[], -1⟩⟩

/-- `GAParams`.  The counts are `int`s that are only ever used as loop
bounds, modelled as `ℕ`; `individualSize` takes part in signed arithmetic
inside `Mutate` and is kept as `ℤ`. -/
structure GAParams where
  generationSize : Nat := 500
  eliteCount : Nat := 10
  crossOverCount : Nat := 200
  mutatedCount : Nat := 200
  mutationRate : ℚ := mkRat 5 100
  individualSize : Int := 300
deriving Repr

/-- `GuessEvaluator::Evaluate`: per-character absolute distance times 256
over the overlapping prefix, plus the squared-base length penalty. -/
def Evaluate (target guess : List Char) : ℚ :=
  (target.zip guess).foldl
    (fun sum p => sum + |((p.1.toNat : ℚ)) - ((p.2.toNat : ℚ))| * 256) 0
  + |((guess.length : ℚ)) - ((target.length : ℚ))| * 256 * 256

/-- The `const char symbols[]` array of `GA::InitSymbols`, including the
terminating NUL character that `std::size` counts. -/
def symbolsArr : List Char :=
  ['=', '_', '!', '@', '#', '$', '%', '^', '&', '*', '(', ')', '<', '>',
   '[', ']', ';', ':', '\'', '"', ' ', '\n', '\x00']

/-- `GA::InitSymbols`: lowercase, uppercase, digits, then every cell of
`symbols[]` (the loop bound is `std::size(symbols)`, so the terminator is
pushed as well). -/
def allowedSymbols : List Char :=
  ((List.range' 97 26).map Char.ofNat)
    ++ ((List.range' 65 26).map Char.ofNat)
    ++ ((List.range' 48 10).map Char.ofNat)
    ++ symbolsArr

/-- One draw of `letterDist(0, allowedSymbols.size() - 1)` turned into a
character of the alphabet `sym`. -/
def letterOf (sym : List Char) (v : Nat) : Char :=
  sym.getD (unifNat 0 (sym.length - 1) v) 'a'

/-- `GA::RandomIndividual`: a length uniformly drawn from `[1, 30]`, then
that many alphabet draws; `diff` stays at the `-1` sentinel. -/
def RandomIndividual (sym : List Char) (s : RStream) (k : Nat) :
    Individual × Nat :=
  let length := unifNat 1 30 (s k)
  (⟨(List.range length).map (fun i => letterOf sym (s (k + 1 + i))), -1⟩,
   k + 1 + length)

/-- `resize(n, fill)` on a `std::string` viewed as a list of characters. -/
def resizeStr (l : List Char) (n : Nat) (fill : Char) : List Char :=
  if n ≤ l.length then l.take n else l ++ List.replicate (n - l.length) fill

/-- `GA::CrossOver`: the child starts as a copy of the longer parent
(ties pick `b`), is resized to the average length, and each position of
the overlapping prefix is overwritten with the corresponding character of
`a` or `b` according to one `discrete_distribution` draw (index 0 picks
`a`, index 1 picks `b`).  The copied `diff` stays stale. -/
def CrossOver (a b : Individual) (s : RStream) (k : Nat) :
    Individual × Nat :=
  let newLen := (a.data.length + b.data.length) / 2
  let base := if a.data.length > b.data.length then a else b
  let resized := resizeStr base.data newLen '\x00'
  let m := min a.data.length b.data.length
  (⟨(List.range resized.length).map (fun i =>
      if i < m then
        (if s (k + i) % 2 = 0 then a.data.getD i 'a' else b.data.getD i 'a')
      else resized.getD i 'a'),
    base.diff⟩,
   k + m)

/-- The lower bound of `Mutate`'s length-delta distribution,
`1 - source.data.size()` as signed arithmetic. -/
def mutateLengthLo (len : Nat) : Int := 1 - (len : Int)

/-- The upper bound of `Mutate`'s length-delta distribution,
`params.individualSize - source.data.size()` as signed arithmetic. -/
def mutateLengthHi (p : GAParams) (len : Nat) : Int :=
  p.individualSize - (len : Int)

/-- The second loop of `GA::Mutate`: every position draws a coin, and on
success one more draw replaces the character with a fresh alphabet
letter.  The cursor advances by one or two per position. -/
def mutatePass (sym : List Char) (rate : ℚ) (s : RStream) :
    List Char → Nat → List Char × Nat
  | [], k => ([], k)
  | c :: rest, k =>
    if realOf (s k) < rate then
      let r := mutatePass sym rate s rest (k + 2)
      (letterOf sym (s (k + 1)) :: r.1, r.2)
    else
      let r := mutatePass sym rate s rest (k + 1)
      (c :: r.1, r.2)

/-- The first (unconditional) fill loop of `GA::Mutate`: positions from
`start` on are overwritten with fresh alphabet draws, one raw draw per
position in index order. -/
def fillFrom (sym : List Char) (start : Nat) (s : RStream) (k : Nat)
    (l : List Char) : List Char × Nat :=
  ((List.range l.length).map (fun i =>
      if start ≤ i then letterOf sym (s (k + (i - start))) else l.getD i 'a'),
   k + (l.length - start))

/-- The new length drawn by `Mutate`: `lengthChange(rng) + source size`
(stored into an `int` and passed to `resize`). -/
def mutateNewLen (p : GAParams) (len v : Nat) : Nat :=
  (unifInt (mutateLengthLo len) (mutateLengthHi p len) v + (len : Int)).toNat

/-- The intermediate string of `Mutate` after the resize (growth filled
with `'a'`) and the unconditional fill loop starting at index
`source.data.size() - 1`, together with the cursor at which the second
pass starts.  For an empty source the `int`/`size_t` comparison makes
the fill loop run zero times. -/
def mutateFilled (p : GAParams) (sym : List Char) (source : Individual)
    (s : RStream) (k : Nat) : List Char × Nat :=
  if source.data.length = 0 then
    (resizeStr source.data (mutateNewLen p source.data.length (s k)) 'a', k + 1)
  else
    fillFrom sym (source.data.length - 1) s (k + 1)
      (resizeStr source.data (mutateNewLen p source.data.length (s k)) 'a')

/-- `GA::Mutate`: one length-delta draw fixes the new length, the string
is resized and unconditionally filled (`mutateFilled`), and the
per-position mutation pass follows.  The copied `diff` stays stale. -/
def Mutate (p : GAParams) (sym : List Char) (source : Individual)
    (s : RStream) (k : Nat) : Individual × Nat :=
  let filled := mutateFilled p sym source s k
  let passed := mutatePass sym p.mutationRate s filled.1 filled.2
  (⟨passed.1, source.diff⟩, passed.2)

/-- The sort relation of `GA::RankIndividuals` (`std::sort` by ascending
`diff`, ties in either order; modelled by a sorted permutation). -/
def diffLE (a b : Individual) : Prop := a.diff ≤ b.diff

instance : DecidableRel diffLE := fun a b => inferInstanceAs (Decidable (a.diff ≤ b.diff))

instance : IsTotal Individual diffLE := ⟨fun a b => le_total a.diff b.diff⟩

instance : IsTrans Individual diffLE := ⟨fun _ _ _ h h' => le_trans h h'⟩

/-- `GA::RankIndividuals`: write `Evaluate` into every `diff`, then sort
ascending by `diff`.  The evaluation loop draws nothing from the
generator. -/
def RankIndividuals (target : List Char) (gen : List Individual) :
    List Individual :=
  List.insertionSort diffLE
    (gen.map (fun ind => { ind with diff := Evaluate target ind.data }))

/-- The crossover loop of `GA::Run`: each iteration draws the two parent
indices from the ranked current generation and then runs `CrossOver`. -/
def crossLoop (ranked : List Individual) (s : RStream) :
    Nat → Nat → List Individual × Nat
  | 0, k => ([], k)
  | n + 1, k =>
    let ia := unifNat 0 (ranked.length - 1) (s k)
    let ib := unifNat 0 (ranked.length - 1) (s (k + 1))
    let child := CrossOver (ranked.getD ia default) (ranked.getD ib default)
      s (k + 2)
    let rest := crossLoop ranked s n child.2
    (child.1 :: rest.1, rest.2)

/-- The mutation loop of `GA::Run`: the picker distribution is built once
over the population as assembled so far (elites ++ crossover children),
so sources come only from that fixed pool even as the vector grows. -/
def mutLoop (p : GAParams) (sym : List Char) (pool : List Individual)
    (s : RStream) : Nat → Nat → List Individual × Nat
  | 0, k => ([], k)
  | n + 1, k =>
    let idx := unifNat 0 (pool.length - 1) (s k)
    let child := Mutate p sym (pool.getD idx default) s (k + 1)
    let rest := mutLoop p sym pool s n child.2
    (child.1 :: rest.1, rest.2)

/-- The `while (nextGeneration.size() < generationSize)` padding loop:
`n` fresh random individuals. -/
def fillLoop (sym : List Char) (s : RStream) :
    Nat → Nat → List Individual × Nat
  | 0, k => ([], k)
  | n + 1, k =>
    let ind := RandomIndividual sym s k
    let rest := fillLoop sym s n ind.2
    (ind.1 :: rest.1, rest.2)

/-- One iteration of the loop body of `GA::Run`: rank, copy the elites,
crossover children, mutated children drawn from the pool built so far,
then pad with random individuals up to `generationSize`. -/
def stepGen (p : GAParams) (sym target : List Char)
    (gen : List Individual) (s : RStream) (k : Nat) :
    List Individual × Nat :=
  let ranked := RankIndividuals target gen
  let elites := ranked.take p.eliteCount
  let crossed := crossLoop ranked s p.crossOverCount k
  let pool := elites ++ crossed.1
  let mutants := mutLoop p sym pool s p.mutatedCount crossed.2
  let built := pool ++ mutants.1
  let fills := fillLoop sym s (p.generationSize - built.length) mutants.2
  (built ++ fills.1, fills.2)

/-- `GA::Run` for `n` generations: iterate `stepGen`, threading the
population and the draw cursor. -/
def runGA (p : GAParams) (sym target : List Char) :
    Nat → List Individual → RStream → Nat → List Individual × Nat
  | 0, gen, _, k => (gen, k)
  | n + 1, gen, s, k =>
    let next := stepGen p sym target gen s k
    runGA p sym target n next.1 s next.2

/-- The constructor of `GA`: `generationSize` random individuals. -/
def initPopulation (p : GAParams) (sym : List Char) (s : RStream)
    (k : Nat) : List Individual × Nat :=
  fillLoop sym s p.generationSize k

/-- The smallest fitness value among the members of a population,
re-derived from their data by the deterministic `Evaluate`. -/
def bestEval (target : List Char) (gen : List Individual) : WithTop ℚ :=
  (gen.map (fun ind => Evaluate target ind.data)).minimum

/-- Concrete raw-draw stream for the C10 and C2 evaluations: index 0 gives
a length draw of 1, index 1 a letter draw hitting the last alphabet cell. -/
def c10Stream : RStream := fun i => 84 * i

/-- Parameters exhibiting the size overshoot of one generation step:
`eliteCount + crossOverCount + mutatedCount > generationSize`. -/
def c2Params : GAParams :=
  { generationSize := 1, eliteCount := 0, crossOverCount := 2,
    mutatedCount := 0, mutationRate := mkRat 5 100, individualSize := 2 }

/-- A one-individual population matching `c2Params.generationSize`. -/
def c2Gen : List Individual := [⟨['a'], -1⟩]

/-- Parameters for the C4 counterexample run of `Mutate`. -/
def c4Params : GAParams :=
  { generationSize := 1, eliteCount := 0, crossOverCount := 0,
    mutatedCount := 0, mutationRate := mkRat 5 100, individualSize := 3 }

/-- Source individual for the C4 counterexample. -/
def c4Source : Individual := ⟨['a', 'a'], -1⟩

/-- Raw draws for the C4 counterexample: the length delta grows the
string from 2 to 3, the unconditional fill writes `'b'` and `'c'`, and
every second-pass coin draw is `2^31`, i.e. `realOf = 1/2 ≥ mutationRate`,
so no coin fires. -/
def c4Stream : RStream :=
  fun i => if i = 0 then 2 else if i = 1 then 1 else
    if i = 2 then 2 else 2147483648

/-- Which position of the list keeps its character in the second pass of
`Mutate`: `coinFired rate s l k i` replays the pass cursor and reports
whether position `i`'s per-position coin came up below `rate`. -/
def coinFired (rate : ℚ) (s : RStream) : List Char → Nat → Nat → Bool
  | [], _, _ => false
  | _ :: _, k, 0 => decide (realOf (s k) < rate)
  | _ :: rest, k, i + 1 =>
    if realOf (s k) < rate then coinFired rate s rest (k + 2) i
    else coinFired rate s rest (k + 1) i

/-- `GAParams` whose `individualSize` is zero, making `Mutate`'s
length-delta range empty for any non-empty source. -/
def c7Params : GAParams :=
  { generationSize := 1, eliteCount := 0, crossOverCount := 0,
    mutatedCount := 0, mutationRate := mkRat 5 100, individualSize := 0 }

/-- A well-formed configuration (`elite + crossover + mutated ≤
generationSize`) used to instantiate the size-preservation theorem. -/
def c2wParams : GAParams :=
  { generationSize := 2, eliteCount := 1, crossOverCount := 1,
    mutatedCount := 0, mutationRate := mkRat 5 100, individualSize := 2 }

/-- A population of size `c2wParams.generationSize`. -/
def c2wGen : List Individual := [⟨['a'], -1⟩, ⟨['b'], -1⟩]

/-- A one-elite configuration used to instantiate the elitism theorem. -/
def c1Params : GAParams :=
  { generationSize := 1, eliteCount := 1, crossOverCount := 0,
    mutatedCount := 0, mutationRate := mkRat 5 100, individualSize := 2 }

/-- A singleton population for the elitism instance. -/
def c1Gen : List Individual := [⟨['b'], -1⟩]

/-- A small full-pipeline configuration used to instantiate the
determinism theorem. -/
def c8Params : GAParams :=
  { generationSize := 1, eliteCount := 1, crossOverCount := 1,
    mutatedCount := 1, mutationRate := mkRat 5 100, individualSize := 2 }

/-- First stream of the determinism instance. -/
def c8Stream1 : RStream := fun i => if i < 1000 then i else 7

/-- Second stream of the determinism instance: agrees with `c8Stream1`
on the first 1000 draws and differs afterwards. -/
def c8Stream2 : RStream := fun i => if i < 1000 then i else 123

theorem length_resizeStr (l : List Char) (n : Nat) (fill : Char) :
    (resizeStr l n fill).length = n := by
  unfold resizeStr
  split <;> simp <;> omega

theorem evalFold_nonneg (l : List (Char × Char)) :
    ∀ acc : ℚ, 0 ≤ acc →
      0 ≤ l.foldl
        (fun sum p => sum + |((p.1.toNat : ℚ)) - ((p.2.toNat : ℚ))| * 256)
        acc := by
  induction l with
  | nil => intro acc h; simpa using h
  | cons p rest ih =>
    intro acc h
    exact ih _ (by positivity)

/-- C6: `Evaluate` returns a non-negative score for every pair of
strings (overlapping-prefix character distances plus the length penalty),
so the `assert(totalDiff >= 0.f)` invariant holds. -/
theorem c6_evaluate_nonneg (target guess : List Char) :
    0 ≤ Evaluate target guess := by
  unfold Evaluate
  have h1 := evalFold_nonneg (target.zip guess) 0 le_rfl
  positivity

/-- C7: the code performs no validation of distribution ranges; with the
legal configuration `individualSize = 0` and a length-1 source, the
length-delta distribution of `Mutate` is constructed with an empty range
(`lo = 0 > hi = -1`), which is undefined behaviour for
`std::uniform_int_distribution` rather than a descriptive fast failure. -/
theorem c7_empty_range_unvalidated :
    mutateLengthLo 1 = 0 ∧ mutateLengthHi c7Params 1 = -1 ∧
      mutateLengthHi c7Params 1 < mutateLengthLo 1 := by
  refine ⟨by decide, by decide, by decide⟩

/-- C10: the alphabet built by `InitSymbols` has exactly 85 characters
because the punctuation loop bound `std::size(symbols)` counts the string
literal's terminating NUL, which is pushed as well; consequently a random
individual can contain NUL bytes. -/
theorem c10_alphabet_has_nul :
    allowedSymbols.length = 85 ∧ '\x00' ∈ allowedSymbols ∧
      '\x00' ∈ (RandomIndividual allowedSymbols c10Stream 0).1.data := by
  refine ⟨by decide, by decide, by decide⟩

theorem getD_resizeStr (l : List Char) (n : Nat) (f d : Char) (i : Nat)
    (hi : i < n) (hil : i < l.length) :
    (resizeStr l n f).getD i d = l.getD i d := by
  unfold resizeStr
  split
  next h =>
    have h1 : i < (l.take n).length := by simp; omega
    rw [List.getD_eq_getElem _ _ h1, List.getD_eq_getElem _ _ hil]
    simp [List.getElem_take]
  next h =>
    have h1 : i < (l ++ List.replicate (n - l.length) f).length := by simp; omega
    rw [List.getD_eq_getElem _ _ h1, List.getD_eq_getElem _ _ hil]
    exact List.getElem_append_left hil

theorem crossOver_data_length (a b : Individual) (s : RStream) (k : Nat) :
    (CrossOver a b s k).1.data.length = (a.data.length + b.data.length) / 2 := by
  simp [CrossOver, length_resizeStr]

theorem crossOver_data_getD (a b : Individual) (s : RStream) (k i : Nat)
    (h : i < (a.data.length + b.data.length) / 2) :
    (CrossOver a b s k).1.data.getD i 'a' =
      if i < min a.data.length b.data.length then
        (if s (k + i) % 2 = 0 then a.data.getD i 'a' else b.data.getD i 'a')
      else
        (if a.data.length > b.data.length then a else b).data.getD i 'a' := by
  have hbase : ((a.data.length + b.data.length) / 2) ≤
      (if a.data.length > b.data.length then a else b).data.length := by
    split <;> omega
  have hlen : i < (CrossOver a b s k).1.data.length := by
    rw [crossOver_data_length]; exact h
  rw [List.getD_eq_getElem _ _ hlen]
  unfold CrossOver
  simp only [List.getElem_map, List.getElem_range, length_resizeStr]
  split
  · rfl
  · exact getD_resizeStr _ _ _ _ i h (by omega)

/-- C3: `CrossOver` always returns a child of length
`⌊(len a + len b)/2⌋`; on the overlapping prefix every character comes
from `a` or `b` at the same position, and beyond it the child keeps the
longer parent's character verbatim. -/
theorem c3_crossover_shape (a b : Individual) (s : RStream) (k : Nat) :
    (CrossOver a b s k).1.data.length = (a.data.length + b.data.length) / 2
    ∧ (∀ i, i < min a.data.length b.data.length →
        (CrossOver a b s k).1.data.getD i 'a' = a.data.getD i 'a' ∨
        (CrossOver a b s k).1.data.getD i 'a' = b.data.getD i 'a')
    ∧ (∀ i, min a.data.length b.data.length ≤ i →
        i < (CrossOver a b s k).1.data.length →
        (CrossOver a b s k).1.data.getD i 'a' =
          (if a.data.length > b.data.length then a else b).data.getD i 'a') := by
  refine ⟨crossOver_data_length a b s k, ?_, ?_⟩
  · intro i hi
    have h2 : i < (a.data.length + b.data.length) / 2 := by omega
    rw [crossOver_data_getD a b s k i h2, if_pos hi]
    split <;> simp
  · intro i hi hlt
    rw [crossOver_data_length] at hlt
    rw [crossOver_data_getD a b s k i hlt, if_neg (by omega)]

/-- C3 witness: concrete parents of lengths 2 and 4. -/
theorem c3_crossover_shape_witness :
    ((CrossOver ⟨['a', 'b'], -1⟩ ⟨['x', 'y', 'z', 'w'], -1⟩ c10Stream 0).1.data.length = 3)
    ∧ ((CrossOver ⟨['a', 'b'], -1⟩ ⟨['x', 'y', 'z', 'w'], -1⟩ c10Stream 0).1.data.getD 0 'a' =
        (⟨['a', 'b'], -1⟩ : Individual).data.getD 0 'a' ∨
       (CrossOver ⟨['a', 'b'], -1⟩ ⟨['x', 'y', 'z', 'w'], -1⟩ c10Stream 0).1.data.getD 0 'a' =
        (⟨['x', 'y', 'z', 'w'], -1⟩ : Individual).data.getD 0 'a')
    ∧ ((CrossOver ⟨['a', 'b'], -1⟩ ⟨['x', 'y', 'z', 'w'], -1⟩ c10Stream 0).1.data.getD 2 'a' =
        (if (2 : Nat) > 4 then (⟨['a', 'b'], -1⟩ : Individual) else ⟨['x', 'y', 'z', 'w'], -1⟩).data.getD 2 'a') := by
  refine ⟨(c3_crossover_shape ⟨['a', 'b'], -1⟩ ⟨['x', 'y', 'z', 'w'], -1⟩ c10Stream 0).1,
    (c3_crossover_shape ⟨['a', 'b'], -1⟩ ⟨['x', 'y', 'z', 'w'], -1⟩ c10Stream 0).2.1 0 (by decide), ?_⟩
  have h := (c3_crossover_shape ⟨['a', 'b'], -1⟩ ⟨['x', 'y', 'z', 'w'], -1⟩ c10Stream 0).2.2 2
    (by decide) (by rw [crossOver_data_length]; decide)
  simpa using h

theorem length_mutatePass (sym : List Char) (rate : ℚ) (s : RStream) :
    ∀ (l : List Char) (k : Nat), ((mutatePass sym rate s l k).1).length = l.length := by
  intro l
  induction l with
  | nil => intro k; rfl
  | cons c rest ih =>
    intro k
    unfold mutatePass
    split <;> simp [ih]

theorem length_fillFrom (sym : List Char) (start : Nat) (s : RStream)
    (k : Nat) (l : List Char) : ((fillFrom sym start s k l).1).length = l.length := by
  simp [fillFrom]

theorem mutateFilled_length (p : GAParams) (sym : List Char)
    (source : Individual) (s : RStream) (k : Nat) :
    (mutateFilled p sym source s k).1.length =
      mutateNewLen p source.data.length (s k) := by
  unfold mutateFilled
  by_cases h : source.data.length = 0 <;>
    simp [h, length_fillFrom, length_resizeStr]

theorem mutate_data_length (p : GAParams) (sym : List Char)
    (source : Individual) (s : RStream) (k : Nat) :
    (Mutate p sym source s k).1.data.length =
      mutateNewLen p source.data.length (s k) := by
  unfold Mutate
  simp [length_mutatePass, mutateFilled_length]

theorem mutate_length_bounds (p : GAParams) (sym : List Char)
    (source : Individual) (s : RStream) (k : Nat) (h : 1 ≤ p.individualSize) :
    1 ≤ (Mutate p sym source s k).1.data.length ∧
      ((Mutate p sym source s k).1.data.length : Int) ≤ p.individualSize := by
  rw [mutate_data_length]
  unfold mutateNewLen
  have harg : mutateLengthHi p source.data.length - mutateLengthLo source.data.length + 1 =
      p.individualSize := by
    unfold mutateLengthLo mutateLengthHi; ring
  have hkey : unifInt (mutateLengthLo source.data.length)
      (mutateLengthHi p source.data.length) (s k) + (source.data.length : Int) =
      1 + (s k : Int) % p.individualSize := by
    unfold unifInt
    rw [harg]
    unfold mutateLengthLo
    ring
  rw [hkey]
  have h1 : 0 ≤ (s k : Int) % p.individualSize :=
    Int.emod_nonneg _ (by omega)
  have h2 : (s k : Int) % p.individualSize < p.individualSize :=
    Int.emod_lt_of_pos _ (by omega)
  omega

/-- C5: the string returned by `Mutate` has length in
`[1, individualSize]`: the delta range is anchored at the source length
so that `delta + len(source)` spans exactly that interval. -/
theorem c5_mutate_length (p : GAParams) (sym : List Char)
    (source : Individual) (s : RStream) (k : Nat) (h : 1 ≤ p.individualSize) :
    1 ≤ (Mutate p sym source s k).1.data.length ∧
      ((Mutate p sym source s k).1.data.length : Int) ≤ p.individualSize :=
  mutate_length_bounds p sym source s k h

/-- C5 witness: the concrete `Mutate` run of the C4 scenario. -/
theorem c5_mutate_length_witness :
    1 ≤ c4Params.individualSize ∧
      (1 ≤ (Mutate c4Params allowedSymbols c4Source c4Stream 0).1.data.length ∧
        ((Mutate c4Params allowedSymbols c4Source c4Stream 0).1.data.length : Int) ≤
          c4Params.individualSize) :=
  ⟨by decide, c5_mutate_length c4Params allowedSymbols c4Source c4Stream 0 (by decide)⟩

theorem length_rankIndividuals (target : List Char) (gen : List Individual) :
    (RankIndividuals target gen).length = gen.length := by
  simp [RankIndividuals]

theorem length_crossLoop (ranked : List Individual) (s : RStream) :
    ∀ (n k : Nat), ((crossLoop ranked s n k).1).length = n := by
  intro n
  induction n with
  | zero => intro k; rfl
  | succ m ih => intro k; simp [crossLoop, ih]

theorem length_mutLoop (p : GAParams) (sym : List Char)
    (pool : List Individual) (s : RStream) :
    ∀ (n k : Nat), ((mutLoop p sym pool s n k).1).length = n := by
  intro n
  induction n with
  | zero => intro k; rfl
  | succ m ih => intro k; simp [mutLoop, ih]

theorem length_fillLoop (sym : List Char) (s : RStream) :
    ∀ (n k : Nat), ((fillLoop sym s n k).1).length = n := by
  intro n
  induction n with
  | zero => intro k; rfl
  | succ m ih => intro k; simp [fillLoop, ih]

/-- C2 counterexample: with `eliteCount + crossOverCount + mutatedCount >
generationSize` (here `0 + 2 + 0 > 1`) one generation step overshoots the
population size — the padding loop only adds, never removes. -/
theorem c2_size_overshoot :
    c2Gen.length = c2Params.generationSize ∧
      (stepGen c2Params allowedSymbols ['a'] c2Gen c10Stream 0).1.length ≠
        c2Params.generationSize := by
  constructor
  · decide
  · decide

/-- C2 amended: provided the configuration satisfies
`eliteCount + crossOverCount + mutatedCount ≤ generationSize`, one full
generation step maps a population of size `generationSize` to a
population of size exactly `generationSize`. -/
theorem c2_step_preserves_size (p : GAParams) (sym target : List Char)
    (gen : List Individual) (s : RStream) (k : Nat)
    (hlen : gen.length = p.generationSize)
    (hsum : p.eliteCount + p.crossOverCount + p.mutatedCount ≤ p.generationSize) :
    (stepGen p sym target gen s k).1.length = p.generationSize := by
  unfold stepGen
  simp only [List.length_append, List.length_take, length_rankIndividuals,
    length_crossLoop, length_mutLoop, length_fillLoop]
  omega

/-- C2 witness: a concrete well-formed configuration. -/
theorem c2_step_preserves_size_witness :
    c2wGen.length = c2wParams.generationSize ∧
      c2wParams.eliteCount + c2wParams.crossOverCount + c2wParams.mutatedCount ≤
        c2wParams.generationSize ∧
      (stepGen c2wParams allowedSymbols ['a'] c2wGen c10Stream 0).1.length =
        c2wParams.generationSize :=
  ⟨by decide, by decide,
    c2_step_preserves_size c2wParams allowedSymbols ['a'] c2wGen c10Stream 0
      (by decide) (by decide)⟩

theorem letterOf_mem (sym : List Char) (v : Nat) (h : sym ≠ []) :
    letterOf sym v ∈ sym := by
  unfold letterOf unifNat
  have hlen : 0 < sym.length := List.length_pos.mpr h
  have hidx : 0 + v % (sym.length - 1 - 0 + 1) < sym.length := by
    have := Nat.mod_lt v (y := sym.length - 1 - 0 + 1) (by omega)
    omega
  rw [List.getD_eq_getElem _ _ hidx]
  exact List.getElem_mem hidx

theorem fillFrom_getD_low (sym : List Char) (start : Nat) (s : RStream)
    (k : Nat) (l : List Char) (i : Nat) (hi : i < l.length) (hlow : i < start) :
    (fillFrom sym start s k l).1.getD i 'a' = l.getD i 'a' := by
  unfold fillFrom
  have h1 : i < ((List.range l.length).map (fun i =>
      if start ≤ i then letterOf sym (s (k + (i - start))) else l.getD i 'a')).length := by
    simpa using hi
  rw [List.getD_eq_getElem _ _ h1]
  simp only [List.getElem_map, List.getElem_range]
  rw [if_neg (by omega)]

theorem fillFrom_getD_high (sym : List Char) (start : Nat) (s : RStream)
    (k : Nat) (l : List Char) (i : Nat) (hi : i < l.length) (hhigh : start ≤ i) :
    (fillFrom sym start s k l).1.getD i 'a' = letterOf sym (s (k + (i - start))) := by
  unfold fillFrom
  have h1 : i < ((List.range l.length).map (fun i =>
      if start ≤ i then letterOf sym (s (k + (i - start))) else l.getD i 'a')).length := by
    simpa using hi
  rw [List.getD_eq_getElem _ _ h1]
  simp only [List.getElem_map, List.getElem_range]
  rw [if_pos hhigh]

theorem mutatePass_getD_of_not_fired (sym : List Char) (rate : ℚ) (s : RStream) :
    ∀ (l : List Char) (k i : Nat),
      coinFired rate s l k i = false → i < l.length →
      (mutatePass sym rate s l k).1.getD i 'a' = l.getD i 'a' := by
  intro l
  induction l with
  | nil => intro k i _ hi; simp at hi
  | cons c rest ih =>
    intro k i hcoin hi
    unfold mutatePass
    cases i with
    | zero =>
      unfold coinFired at hcoin
      rw [decide_eq_false_iff_not] at hcoin
      rw [if_neg hcoin]
      simp
    | succ j =>
      unfold coinFired at hcoin
      by_cases hc : realOf (s k) < rate
      · rw [if_pos hc] at hcoin ⊢
        simp only [List.getD_cons_succ]
        exact ih (k + 2) j hcoin (by simpa using hi)
      · rw [if_neg hc] at hcoin ⊢
        simp only [List.getD_cons_succ]
        exact ih (k + 1) j hcoin (by simpa using hi)

theorem mutatePass_getD_mem_or_eq (sym : List Char) (rate : ℚ) (s : RStream)
    (hsym : sym ≠ []) :
    ∀ (l : List Char) (k i : Nat), i < l.length →
      (mutatePass sym rate s l k).1.getD i 'a' = l.getD i 'a' ∨
      (mutatePass sym rate s l k).1.getD i 'a' ∈ sym := by
  intro l
  induction l with
  | nil => intro k i hi; simp at hi
  | cons c rest ih =>
    intro k i hi
    unfold mutatePass
    by_cases hc : realOf (s k) < rate
    · rw [if_pos hc]
      cases i with
      | zero => right; simpa using letterOf_mem sym (s (k + 1)) hsym
      | succ j =>
        simp only [List.getD_cons_succ]
        exact ih (k + 2) j (by simpa using hi)
    · rw [if_neg hc]
      cases i with
      | zero => left; simp
      | succ j =>
        simp only [List.getD_cons_succ]
        exact ih (k + 1) j (by simpa using hi)

theorem mutateFilled_getD_retained (p : GAParams) (sym : List Char)
    (source : Individual) (s : RStream) (k i : Nat)
    (h1 : i + 1 < source.data.length)
    (h2 : i < (mutateFilled p sym source s k).1.length) :
    (mutateFilled p sym source s k).1.getD i 'a' = source.data.getD i 'a' := by
  have hlen0 : ¬ source.data.length = 0 := by omega
  rw [mutateFilled_length] at h2
  unfold mutateFilled
  rw [if_neg hlen0]
  rw [fillFrom_getD_low sym _ s _ _ i (by rw [length_resizeStr]; exact h2) (by omega)]
  exact getD_resizeStr _ _ _ _ i h2 (by omega)

theorem mutateFilled_getD_filled (p : GAParams) (sym : List Char)
    (source : Individual) (s : RStream) (k i : Nat) (hsym : sym ≠ [])
    (hsrc : 1 ≤ source.data.length)
    (hge : source.data.length ≤ i + 1)
    (h2 : i < (mutateFilled p sym source s k).1.length) :
    (mutateFilled p sym source s k).1.getD i 'a' ∈ sym := by
  have hlen0 : ¬ source.data.length = 0 := by omega
  rw [mutateFilled_length] at h2
  unfold mutateFilled
  rw [if_neg hlen0]
  rw [fillFrom_getD_high sym _ s _ _ i (by rw [length_resizeStr]; exact h2) (by omega)]
  exact letterOf_mem sym _ hsym

/-- C4 counterexample: growing `"aa"` to length 3 with
`individualSize = 3`.  Position 1 is a retained position
(`1 < min(len(source), len(result))`) and its second-pass coin does not
fire, yet the unconditional fill loop — which starts at index
`len(source) - 1`, not `len(source)` — has already replaced the
character: the result is `"abc"`, not `"aXc"` with `X = source[1]`. -/
theorem c4_retained_position_overwritten :
    coinFired c4Params.mutationRate c4Stream
        (mutateFilled c4Params allowedSymbols c4Source c4Stream 0).1
        (mutateFilled c4Params allowedSymbols c4Source c4Stream 0).2 1 = false
    ∧ 1 < min c4Source.data.length
        (Mutate c4Params allowedSymbols c4Source c4Stream 0).1.data.length
    ∧ (Mutate c4Params allowedSymbols c4Source c4Stream 0).1.data = ['a', 'b', 'c']
    ∧ (Mutate c4Params allowedSymbols c4Source c4Stream 0).1.data.getD 1 'a' ≠
        c4Source.data.getD 1 'a' := by
  refine ⟨by decide, by decide, by decide, by decide⟩

/-- C4 amended: the unconditional fill of `Mutate` starts at index
`len(source) - 1`, not `len(source)`.  Every position `i` with
`i + 1 < len(source)` (strictly before the fill start) keeps the source
character unless its per-position coin of the second pass fires, and
every position from `len(source) - 1` on (for a non-empty source) holds
an alphabet character, coming from the unconditional fill or from
re-mutation. -/
theorem c4_mutate_positions (p : GAParams) (sym : List Char)
    (source : Individual) (s : RStream) (k : Nat) (hsym : sym ≠ []) :
    (∀ i, i + 1 < source.data.length →
      i < (Mutate p sym source s k).1.data.length →
      coinFired p.mutationRate s (mutateFilled p sym source s k).1
        (mutateFilled p sym source s k).2 i = false →
      (Mutate p sym source s k).1.data.getD i 'a' = source.data.getD i 'a')
    ∧ (∀ i, source.data.length ≤ i + 1 → 1 ≤ source.data.length →
        i < (Mutate p sym source s k).1.data.length →
        (Mutate p sym source s k).1.data.getD i 'a' ∈ sym) := by
  have hdata : (Mutate p sym source s k).1.data =
      (mutatePass sym p.mutationRate s (mutateFilled p sym source s k).1
        (mutateFilled p sym source s k).2).1 := rfl
  have hlen : (Mutate p sym source s k).1.data.length =
      (mutateFilled p sym source s k).1.length := by
    rw [hdata, length_mutatePass]
  constructor
  · intro i hi hilen hcoin
    rw [hdata,
      mutatePass_getD_of_not_fired sym p.mutationRate s _ _ i hcoin (by rw [← hlen]; exact hilen)]
    exact mutateFilled_getD_retained p sym source s k i hi (by rw [← hlen]; exact hilen)
  · intro i hge hsrc hilen
    rw [hlen] at hilen
    have hmem := mutateFilled_getD_filled p sym source s k i hsym hsrc hge hilen
    rcases mutatePass_getD_mem_or_eq sym p.mutationRate s hsym
        (mutateFilled p sym source s k).1 (mutateFilled p sym source s k).2 i hilen with
      heq | hmem2
    · rw [hdata, heq]; exact hmem
    · rw [hdata]; exact hmem2

/-- C4 witness: in the counterexample run, position 0 (strictly before
the fill start) keeps its source character because its coin is false,
and position 2 holds an alphabet character. -/
theorem c4_mutate_positions_witness :
    allowedSymbols ≠ [] ∧ 0 + 1 < c4Source.data.length ∧
      0 < (Mutate c4Params allowedSymbols c4Source c4Stream 0).1.data.length ∧
      coinFired c4Params.mutationRate c4Stream
        (mutateFilled c4Params allowedSymbols c4Source c4Stream 0).1
        (mutateFilled c4Params allowedSymbols c4Source c4Stream 0).2 0 = false ∧
      (Mutate c4Params allowedSymbols c4Source c4Stream 0).1.data.getD 0 'a' =
        c4Source.data.getD 0 'a' :=
  ⟨by decide, by decide, by decide, by decide,
    (c4_mutate_positions c4Params allowedSymbols c4Source c4Stream 0 (by decide)).1 0
      (by decide) (by decide) (by decide)⟩

theorem unifNat_zero_lt (n v : Nat) (h : n ≠ 0) : unifNat 0 (n - 1) v < n := by
  unfold unifNat
  have := Nat.mod_lt v (y := n - 1 - 0 + 1) (by omega)
  omega

theorem getD_mem_of_lt (l : List Individual) (i : Nat) (h : i < l.length) :
    l.getD i default ∈ l := by
  rw [List.getD_eq_getElem _ _ h]
  exact List.getElem_mem h

theorem randomIndividual_length_pos (sym : List Char) (s : RStream) (k : Nat) :
    1 ≤ (RandomIndividual sym s k).1.data.length := by
  simp [RandomIndividual, unifNat]

theorem fillLoop_members_length_pos (sym : List Char) (s : RStream) :
    ∀ (n k : Nat), ∀ ind ∈ (fillLoop sym s n k).1, 1 ≤ ind.data.length := by
  intro n
  induction n with
  | zero => intro k ind h; simp [fillLoop] at h
  | succ m ih =>
    intro k ind h
    simp only [fillLoop, List.mem_cons] at h
    rcases h with h | h
    · rw [h]; exact randomIndividual_length_pos sym s k
    · exact ih _ ind h

theorem crossOver_length_pos (a b : Individual) (s : RStream) (k : Nat)
    (ha : 1 ≤ a.data.length) (hb : 1 ≤ b.data.length) :
    1 ≤ (CrossOver a b s k).1.data.length := by
  rw [crossOver_data_length]
  omega

theorem rank_member_data (target : List Char) (gen : List Individual)
    (x : Individual) (hx : x ∈ RankIndividuals target gen) :
    ∃ y ∈ gen, x.data = y.data := by
  unfold RankIndividuals at hx
  rw [List.mem_insertionSort] at hx
  rcases List.mem_map.mp hx with ⟨y, hy, rfl⟩
  exact ⟨y, hy, rfl⟩

theorem crossLoop_members_length_pos (ranked : List Individual) (s : RStream)
    (hne : ranked ≠ []) (hr : ∀ y ∈ ranked, 1 ≤ y.data.length) :
    ∀ (n k : Nat), ∀ x ∈ (crossLoop ranked s n k).1, 1 ≤ x.data.length := by
  intro n
  induction n with
  | zero => intro k x h; simp [crossLoop] at h
  | succ m ih =>
    intro k x h
    have hlen : ranked.length ≠ 0 := by
      simpa using fun h0 => hne (List.length_eq_zero.mp h0)
    simp only [crossLoop, List.mem_cons] at h
    rcases h with h | h
    · rw [h]
      exact crossOver_length_pos _ _ s _
        (hr _ (getD_mem_of_lt ranked _ (unifNat_zero_lt ranked.length _ hlen)))
        (hr _ (getD_mem_of_lt ranked _ (unifNat_zero_lt ranked.length _ hlen)))
    · exact ih _ x h

theorem mutLoop_members_length_pos (p : GAParams) (sym : List Char)
    (pool : List Individual) (s : RStream) (hp : 1 ≤ p.individualSize) :
    ∀ (n k : Nat), ∀ x ∈ (mutLoop p sym pool s n k).1, 1 ≤ x.data.length := by
  intro n
  induction n with
  | zero => intro k x h; simp [mutLoop] at h
  | succ m ih =>
    intro k x h
    simp only [mutLoop, List.mem_cons] at h
    rcases h with h | h
    · rw [h]
      exact (mutate_length_bounds p sym _ s _ hp).1
    · exact ih _ x h

theorem stepGen_members_length_pos (p : GAParams) (sym target : List Char)
    (gen : List Individual) (s : RStream) (k : Nat)
    (hp : 1 ≤ p.individualSize)
    (hgen : ∀ ind ∈ gen, 1 ≤ ind.data.length)
    (hne : gen ≠ [] ∨ p.crossOverCount = 0) :
    ∀ ind ∈ (stepGen p sym target gen s k).1, 1 ≤ ind.data.length := by
  intro ind hmem
  unfold stepGen at hmem
  simp only [List.mem_append] at hmem
  have hrank : ∀ y ∈ RankIndividuals target gen, 1 ≤ y.data.length := by
    intro y hy
    rcases rank_member_data target gen y hy with ⟨z, hz, hdz⟩
    rw [hdz]
    exact hgen z hz
  rcases hmem with (hmem | hmem) | hmem
  · rcases hmem with hmem | hmem
    · exact hrank ind (List.take_subset _ _ hmem)
    · rcases hne with hne | hzero
      · have hne' : RankIndividuals target gen ≠ [] := by
          intro h0
          apply hne
          have := length_rankIndividuals target gen
          rw [h0] at this
          exact List.length_eq_zero.mp this.symm
        exact crossLoop_members_length_pos _ s hne' hrank _ _ ind hmem
      · rw [hzero] at hmem
        simp [crossLoop] at hmem
  · exact mutLoop_members_length_pos p sym _ s hp _ _ ind hmem
  · exact fillLoop_members_length_pos sym s _ _ ind hmem

theorem stepGen_ne_nil_or (p : GAParams) (sym target : List Char)
    (gen : List Individual) (s : RStream) (k : Nat) :
    (stepGen p sym target gen s k).1 ≠ [] ∨ p.crossOverCount = 0 := by
  by_cases hc : p.crossOverCount = 0
  · exact Or.inr hc
  · left
    intro h0
    have hlen : (stepGen p sym target gen s k).1.length = 0 := by rw [h0]; rfl
    unfold stepGen at hlen
    simp only [List.length_append, length_crossLoop, length_mutLoop,
      length_fillLoop] at hlen
    omega

theorem runGA_members_length_pos (p : GAParams) (sym target : List Char)
    (hp : 1 ≤ p.individualSize) :
    ∀ (n : Nat) (gen : List Individual) (s : RStream) (k : Nat),
      (∀ ind ∈ gen, 1 ≤ ind.data.length) → (gen ≠ [] ∨ p.crossOverCount = 0) →
      ∀ ind ∈ (runGA p sym target n gen s k).1, 1 ≤ ind.data.length := by
  intro n
  induction n with
  | zero => intro gen s k hgen _ ind hmem; exact hgen ind hmem
  | succ m ih =>
    intro gen s k hgen hne ind hmem
    exact ih _ s _
      (stepGen_members_length_pos p sym target gen s k hp hgen hne)
      ((stepGen_ne_nil_or p sym target gen s k).imp_right id) ind hmem

/-- C9: starting from the constructor's population, every individual of
every reachable population has non-empty data: random individuals have
length in `[1, 30]`, `Mutate` always lands in `[1, individualSize]`, and
`CrossOver` of two non-empty parents yields `⌊(la+lb)/2⌋ ≥ 1`. -/
theorem c9_nonempty_individuals (p : GAParams) (sym target : List Char)
    (n : Nat) (s s' : RStream) (k k' : Nat)
    (hp : 1 ≤ p.individualSize) (hg : 1 ≤ p.generationSize) :
    (∀ ind ∈ (initPopulation p sym s' k').1, 1 ≤ ind.data.length) ∧
      (∀ ind ∈ (runGA p sym target n (initPopulation p sym s' k').1 s k).1,
        1 ≤ ind.data.length) := by
  have hinit : ∀ ind ∈ (initPopulation p sym s' k').1, 1 ≤ ind.data.length :=
    fillLoop_members_length_pos sym s' _ _
  refine ⟨hinit, ?_⟩
  have hne : (initPopulation p sym s' k').1 ≠ [] := by
    intro h0
    have hlen : (initPopulation p sym s' k').1.length = p.generationSize :=
      length_fillLoop sym s' _ _
    rw [h0] at hlen
    simp at hlen
    omega
  exact runGA_members_length_pos p sym target hp n _ s k hinit (Or.inl hne)

/-- C9 witness: one step of the small full-pipeline configuration. -/
theorem c9_nonempty_individuals_witness :
    1 ≤ c8Params.individualSize ∧ 1 ≤ c8Params.generationSize ∧
      ((∀ ind ∈ (initPopulation c8Params allowedSymbols c8Stream1 0).1,
          1 ≤ ind.data.length) ∧
        (∀ ind ∈ (runGA c8Params allowedSymbols ['a'] 1
            (initPopulation c8Params allowedSymbols c8Stream1 0).1 c8Stream1 0).1,
          1 ≤ ind.data.length)) :=
  ⟨by decide, by decide,
    c9_nonempty_individuals c8Params allowedSymbols ['a'] 1 c8Stream1 c8Stream1 0 0
      (by decide) (by decide)⟩

theorem randomIndividual_cursor_mono (sym : List Char) (s : RStream) (k : Nat) :
    k ≤ (RandomIndividual sym s k).2 := by
  show k ≤ k + 1 + unifNat 1 30 (s k)
  omega

theorem crossOver_cursor_mono (a b : Individual) (s : RStream) (k : Nat) :
    k ≤ (CrossOver a b s k).2 := by
  show k ≤ k + min a.data.length b.data.length
  omega

theorem mutatePass_cursor_mono (sym : List Char) (rate : ℚ) (s : RStream) :
    ∀ (l : List Char) (k : Nat), k ≤ (mutatePass sym rate s l k).2 := by
  intro l
  induction l with
  | nil => intro k; exact Nat.le_refl k
  | cons c rest ih =>
    intro k
    simp only [mutatePass]
    split
    · exact le_trans (by omega) (ih (k + 2))
    · exact le_trans (by omega) (ih (k + 1))

theorem fillFrom_cursor_mono (sym : List Char) (start : Nat) (s : RStream)
    (k : Nat) (l : List Char) : k ≤ (fillFrom sym start s k l).2 :=
  Nat.le_add_right k _

theorem mutateFilled_cursor_mono (p : GAParams) (sym : List Char)
    (source : Individual) (s : RStream) (k : Nat) :
    k + 1 ≤ (mutateFilled p sym source s k).2 := by
  unfold mutateFilled
  split
  · exact Nat.le_refl _
  · exact le_trans (by omega) (fillFrom_cursor_mono sym _ s (k + 1) _)

theorem mutate_cursor_mono (p : GAParams) (sym : List Char)
    (source : Individual) (s : RStream) (k : Nat) :
    k ≤ (Mutate p sym source s k).2 := by
  have h1 := mutateFilled_cursor_mono p sym source s k
  have h2 := mutatePass_cursor_mono sym p.mutationRate s
    (mutateFilled p sym source s k).1 (mutateFilled p sym source s k).2
  exact le_trans (by omega) h2

theorem crossLoop_cursor_mono (ranked : List Individual) (s : RStream) :
    ∀ (n k : Nat), k ≤ (crossLoop ranked s n k).2 := by
  intro n
  induction n with
  | zero => intro k; exact Nat.le_refl k
  | succ m ih =>
    intro k
    simp only [crossLoop]
    refine le_trans ?_ (ih _)
    exact le_trans (by omega) (crossOver_cursor_mono _ _ s (k + 2))

theorem mutLoop_cursor_mono (p : GAParams) (sym : List Char)
    (pool : List Individual) (s : RStream) :
    ∀ (n k : Nat), k ≤ (mutLoop p sym pool s n k).2 := by
  intro n
  induction n with
  | zero => intro k; exact Nat.le_refl k
  | succ m ih =>
    intro k
    simp only [mutLoop]
    refine le_trans ?_ (ih _)
    exact le_trans (by omega) (mutate_cursor_mono p sym _ s (k + 1))

theorem fillLoop_cursor_mono (sym : List Char) (s : RStream) :
    ∀ (n k : Nat), k ≤ (fillLoop sym s n k).2 := by
  intro n
  induction n with
  | zero => intro k; exact Nat.le_refl k
  | succ m ih =>
    intro k
    simp only [fillLoop]
    exact le_trans (randomIndividual_cursor_mono sym s k) (ih _)

theorem stepGen_cursor_mono (p : GAParams) (sym target : List Char)
    (gen : List Individual) (s : RStream) (k : Nat) :
    k ≤ (stepGen p sym target gen s k).2 := by
  have h1 := crossLoop_cursor_mono (RankIndividuals target gen) s p.crossOverCount k
  have h2 := mutLoop_cursor_mono p sym
    ((RankIndividuals target gen).take p.eliteCount ++
      (crossLoop (RankIndividuals target gen) s p.crossOverCount k).1) s
    p.mutatedCount (crossLoop (RankIndividuals target gen) s p.crossOverCount k).2
  refine le_trans h1 (le_trans h2 ?_)
  exact fillLoop_cursor_mono sym s _ _

theorem runGA_cursor_mono (p : GAParams) (sym target : List Char) :
    ∀ (n : Nat) (gen : List Individual) (s : RStream) (k : Nat),
      k ≤ (runGA p sym target n gen s k).2 := by
  intro n
  induction n with
  | zero => intro gen s k; exact Nat.le_refl k
  | succ m ih =>
    intro gen s k
    simp only [runGA]
    exact le_trans (stepGen_cursor_mono p sym target gen s k) (ih _ s _)

theorem agree_randomIndividual (sym : List Char) (s₁ s₂ : RStream) (k : Nat)
    (H : ∀ i, i < (RandomIndividual sym s₁ k).2 → s₁ i = s₂ i) :
    RandomIndividual sym s₁ k = RandomIndividual sym s₂ k := by
  have hfin : (RandomIndividual sym s₁ k).2 = k + 1 + unifNat 1 30 (s₁ k) := rfl
  have hk : s₁ k = s₂ k := H k (by rw [hfin]; omega)
  show ((⟨(List.range (unifNat 1 30 (s₁ k))).map (fun i => letterOf sym (s₁ (k + 1 + i))), -1⟩ : Individual),
      k + 1 + unifNat 1 30 (s₁ k)) =
    ((⟨(List.range (unifNat 1 30 (s₂ k))).map (fun i => letterOf sym (s₂ (k + 1 + i))), -1⟩ : Individual),
      k + 1 + unifNat 1 30 (s₂ k))
  rw [← hk]
  have hdata : (List.range (unifNat 1 30 (s₁ k))).map (fun i => letterOf sym (s₁ (k + 1 + i))) =
      (List.range (unifNat 1 30 (s₁ k))).map (fun i => letterOf sym (s₂ (k + 1 + i))) := by
    apply List.map_congr_left
    intro i hi
    rw [List.mem_range] at hi
    rw [H (k + 1 + i) (by rw [hfin]; omega)]
  rw [hdata]

theorem agree_crossOver (a b : Individual) (s₁ s₂ : RStream) (k : Nat)
    (H : ∀ i, i < (CrossOver a b s₁ k).2 → s₁ i = s₂ i) :
    CrossOver a b s₁ k = CrossOver a b s₂ k := by
  have hfin : (CrossOver a b s₁ k).2 = k + min a.data.length b.data.length := rfl
  show ((⟨(List.range (resizeStr (if a.data.length > b.data.length then a else b).data
        ((a.data.length + b.data.length) / 2) '\x00').length).map (fun i =>
      if i < min a.data.length b.data.length then
        (if s₁ (k + i) % 2 = 0 then a.data.getD i 'a' else b.data.getD i 'a')
      else (resizeStr (if a.data.length > b.data.length then a else b).data
        ((a.data.length + b.data.length) / 2) '\x00').getD i 'a'),
      (if a.data.length > b.data.length then a else b).diff⟩ : Individual),
      k + min a.data.length b.data.length) =
    ((⟨(List.range (resizeStr (if a.data.length > b.data.length then a else b).data
        ((a.data.length + b.data.length) / 2) '\x00').length).map (fun i =>
      if i < min a.data.length b.data.length then
        (if s₂ (k + i) % 2 = 0 then a.data.getD i 'a' else b.data.getD i 'a')
      else (resizeStr (if a.data.length > b.data.length then a else b).data
        ((a.data.length + b.data.length) / 2) '\x00').getD i 'a'),
      (if a.data.length > b.data.length then a else b).diff⟩ : Individual),
      k + min a.data.length b.data.length)
  have hdata : (List.range (resizeStr (if a.data.length > b.data.length then a else b).data
        ((a.data.length + b.data.length) / 2) '\x00').length).map (fun i =>
      if i < min a.data.length b.data.length then
        (if s₁ (k + i) % 2 = 0 then a.data.getD i 'a' else b.data.getD i 'a')
      else (resizeStr (if a.data.length > b.data.length then a else b).data
        ((a.data.length + b.data.length) / 2) '\x00').getD i 'a') =
      (List.range (resizeStr (if a.data.length > b.data.length then a else b).data
        ((a.data.length + b.data.length) / 2) '\x00').length).map (fun i =>
      if i < min a.data.length b.data.length then
        (if s₂ (k + i) % 2 = 0 then a.data.getD i 'a' else b.data.getD i 'a')
      else (resizeStr (if a.data.length > b.data.length then a else b).data
        ((a.data.length + b.data.length) / 2) '\x00').getD i 'a') := by
    apply List.map_congr_left
    intro i _
    by_cases hi : i < min a.data.length b.data.length
    · rw [if_pos hi, if_pos hi, H (k + i) (by rw [hfin]; omega)]
    · rw [if_neg hi, if_neg hi]
  rw [hdata]

theorem agree_mutatePass (sym : List Char) (rate : ℚ) (s₁ s₂ : RStream) :
    ∀ (l : List Char) (k : Nat),
      (∀ i, i < (mutatePass sym rate s₁ l k).2 → s₁ i = s₂ i) →
      mutatePass sym rate s₁ l k = mutatePass sym rate s₂ l k := by
  intro l
  induction l with
  | nil => intro k _; rfl
  | cons c rest ih =>
    intro k H
    have hfin : (mutatePass sym rate s₁ (c :: rest) k).2 =
        if realOf (s₁ k) < rate then (mutatePass sym rate s₁ rest (k + 2)).2
        else (mutatePass sym rate s₁ rest (k + 1)).2 := by
      simp only [mutatePass]
      split <;> rfl
    have hm2 := mutatePass_cursor_mono sym rate s₁ rest (k + 2)
    have hm1 := mutatePass_cursor_mono sym rate s₁ rest (k + 1)
    have hk : s₁ k = s₂ k := by
      apply H k
      rw [hfin]
      split <;> omega
    simp only [mutatePass, ← hk]
    by_cases hc : realOf (s₁ k) < rate
    · rw [if_pos hc, if_pos hc]
      have hrec := ih (k + 2) (fun i hi => H i (by rw [hfin, if_pos hc]; exact hi))
      have hk1 : s₁ (k + 1) = s₂ (k + 1) := H (k + 1) (by rw [hfin, if_pos hc]; omega)
      rw [hrec, hk1]
    · rw [if_neg hc, if_neg hc]
      have hrec := ih (k + 1) (fun i hi => H i (by rw [hfin, if_neg hc]; exact hi))
      rw [hrec]

theorem agree_fillFrom (sym : List Char) (start : Nat) (s₁ s₂ : RStream)
    (k : Nat) (l : List Char)
    (H : ∀ i, i < (fillFrom sym start s₁ k l).2 → s₁ i = s₂ i) :
    fillFrom sym start s₁ k l = fillFrom sym start s₂ k l := by
  have hfin : (fillFrom sym start s₁ k l).2 = k + (l.length - start) := rfl
  unfold fillFrom
  have hdata : (List.range l.length).map (fun i =>
      if start ≤ i then letterOf sym (s₁ (k + (i - start))) else l.getD i 'a') =
      (List.range l.length).map (fun i =>
      if start ≤ i then letterOf sym (s₂ (k + (i - start))) else l.getD i 'a') := by
    apply List.map_congr_left
    intro i hi
    rw [List.mem_range] at hi
    by_cases hs : start ≤ i
    · rw [if_pos hs, if_pos hs, H (k + (i - start)) (by rw [hfin]; omega)]
    · rw [if_neg hs, if_neg hs]
  rw [hdata]

theorem agree_mutateFilled (p : GAParams) (sym : List Char)
    (source : Individual) (s₁ s₂ : RStream) (k : Nat)
    (H : ∀ i, i < (mutateFilled p sym source s₁ k).2 → s₁ i = s₂ i) :
    mutateFilled p sym source s₁ k = mutateFilled p sym source s₂ k := by
  have hk : s₁ k = s₂ k := H k (by
    have := mutateFilled_cursor_mono p sym source s₁ k
    omega)
  unfold mutateFilled
  by_cases h0 : source.data.length = 0
  · rw [if_pos h0, if_pos h0, hk]
  · rw [if_neg h0, if_neg h0, ← hk]
    apply agree_fillFrom
    intro i hi
    apply H i
    have hfin : (mutateFilled p sym source s₁ k).2 =
        (fillFrom sym (source.data.length - 1) s₁ (k + 1)
          (resizeStr source.data (mutateNewLen p source.data.length (s₁ k)) 'a')).2 := by
      unfold mutateFilled
      rw [if_neg h0]
    rw [hfin]
    exact hi

theorem agree_mutate (p : GAParams) (sym : List Char) (source : Individual)
    (s₁ s₂ : RStream) (k : Nat)
    (H : ∀ i, i < (Mutate p sym source s₁ k).2 → s₁ i = s₂ i) :
    Mutate p sym source s₁ k = Mutate p sym source s₂ k := by
  have hfin : (Mutate p sym source s₁ k).2 =
      (mutatePass sym p.mutationRate s₁ (mutateFilled p sym source s₁ k).1
        (mutateFilled p sym source s₁ k).2).2 := rfl
  have hm := mutatePass_cursor_mono sym p.mutationRate s₁
    (mutateFilled p sym source s₁ k).1 (mutateFilled p sym source s₁ k).2
  have h1 : mutateFilled p sym source s₁ k = mutateFilled p sym source s₂ k :=
    agree_mutateFilled p sym source s₁ s₂ k (fun i hi => H i (by rw [hfin]; omega))
  have h2 : mutatePass sym p.mutationRate s₁ (mutateFilled p sym source s₁ k).1
      (mutateFilled p sym source s₁ k).2 =
      mutatePass sym p.mutationRate s₂ (mutateFilled p sym source s₁ k).1
      (mutateFilled p sym source s₁ k).2 :=
    agree_mutatePass sym p.mutationRate s₁ s₂ _ _ (fun i hi => H i (by rw [hfin]; exact hi))
  show ((⟨(mutatePass sym p.mutationRate s₁ (mutateFilled p sym source s₁ k).1
      (mutateFilled p sym source s₁ k).2).1, source.diff⟩ : Individual),
      (mutatePass sym p.mutationRate s₁ (mutateFilled p sym source s₁ k).1
        (mutateFilled p sym source s₁ k).2).2) =
    ((⟨(mutatePass sym p.mutationRate s₂ (mutateFilled p sym source s₂ k).1
      (mutateFilled p sym source s₂ k).2).1, source.diff⟩ : Individual),
      (mutatePass sym p.mutationRate s₂ (mutateFilled p sym source s₂ k).1
        (mutateFilled p sym source s₂ k).2).2)
  rw [← h1, h2]

theorem agree_crossLoop (ranked : List Individual) (s₁ s₂ : RStream) :
    ∀ (n k : Nat),
      (∀ i, i < (crossLoop ranked s₁ n k).2 → s₁ i = s₂ i) →
      crossLoop ranked s₁ n k = crossLoop ranked s₂ n k := by
  intro n
  induction n with
  | zero => intro k _; rfl
  | succ m ih =>
    intro k H
    have hfin : (crossLoop ranked s₁ (m + 1) k).2 =
        (crossLoop ranked s₁ m
          (CrossOver (ranked.getD (unifNat 0 (ranked.length - 1) (s₁ k)) default)
            (ranked.getD (unifNat 0 (ranked.length - 1) (s₁ (k + 1))) default)
            s₁ (k + 2)).2).2 := rfl
    have hmc := crossOver_cursor_mono
      (ranked.getD (unifNat 0 (ranked.length - 1) (s₁ k)) default)
      (ranked.getD (unifNat 0 (ranked.length - 1) (s₁ (k + 1))) default) s₁ (k + 2)
    have hml := crossLoop_cursor_mono ranked s₁ m
      (CrossOver (ranked.getD (unifNat 0 (ranked.length - 1) (s₁ k)) default)
        (ranked.getD (unifNat 0 (ranked.length - 1) (s₁ (k + 1))) default)
        s₁ (k + 2)).2
    have hk : s₁ k = s₂ k := H k (by rw [hfin]; omega)
    have hk1 : s₁ (k + 1) = s₂ (k + 1) := H (k + 1) (by rw [hfin]; omega)
    have hchild : CrossOver (ranked.getD (unifNat 0 (ranked.length - 1) (s₁ k)) default)
        (ranked.getD (unifNat 0 (ranked.length - 1) (s₁ (k + 1))) default) s₁ (k + 2) =
        CrossOver (ranked.getD (unifNat 0 (ranked.length - 1) (s₁ k)) default)
        (ranked.getD (unifNat 0 (ranked.length - 1) (s₁ (k + 1))) default) s₂ (k + 2) :=
      agree_crossOver _ _ s₁ s₂ (k + 2) (fun i hi => H i (by rw [hfin]; omega))
    have hrec := ih (CrossOver (ranked.getD (unifNat 0 (ranked.length - 1) (s₁ k)) default)
        (ranked.getD (unifNat 0 (ranked.length - 1) (s₁ (k + 1))) default) s₁ (k + 2)).2
      (fun i hi => H i (by rw [hfin]; exact hi))
    simp only [crossLoop]
    rw [← hk, ← hk1, ← hchild, hrec]

theorem agree_mutLoop (p : GAParams) (sym : List Char)
    (pool : List Individual) (s₁ s₂ : RStream) :
    ∀ (n k : Nat),
      (∀ i, i < (mutLoop p sym pool s₁ n k).2 → s₁ i = s₂ i) →
      mutLoop p sym pool s₁ n k = mutLoop p sym pool s₂ n k := by
  intro n
  induction n with
  | zero => intro k _; rfl
  | succ m ih =>
    intro k H
    have hfin : (mutLoop p sym pool s₁ (m + 1) k).2 =
        (mutLoop p sym pool s₁ m
          (Mutate p sym (pool.getD (unifNat 0 (pool.length - 1) (s₁ k)) default)
            s₁ (k + 1)).2).2 := rfl
    have hmm := mutate_cursor_mono p sym
      (pool.getD (unifNat 0 (pool.length - 1) (s₁ k)) default) s₁ (k + 1)
    have hml := mutLoop_cursor_mono p sym pool s₁ m
      (Mutate p sym (pool.getD (unifNat 0 (pool.length - 1) (s₁ k)) default)
        s₁ (k + 1)).2
    have hk : s₁ k = s₂ k := H k (by rw [hfin]; omega)
    have hchild : Mutate p sym (pool.getD (unifNat 0 (pool.length - 1) (s₁ k)) default)
        s₁ (k + 1) =
        Mutate p sym (pool.getD (unifNat 0 (pool.length - 1) (s₁ k)) default)
        s₂ (k + 1) :=
      agree_mutate p sym _ s₁ s₂ (k + 1) (fun i hi => H i (by rw [hfin]; omega))
    have hrec := ih (Mutate p sym (pool.getD (unifNat 0 (pool.length - 1) (s₁ k)) default)
        s₁ (k + 1)).2 (fun i hi => H i (by rw [hfin]; exact hi))
    simp only [mutLoop]
    rw [← hk, ← hchild, hrec]

theorem agree_fillLoop (sym : List Char) (s₁ s₂ : RStream) :
    ∀ (n k : Nat),
      (∀ i, i < (fillLoop sym s₁ n k).2 → s₁ i = s₂ i) →
      fillLoop sym s₁ n k = fillLoop sym s₂ n k := by
  intro n
  induction n with
  | zero => intro k _; rfl
  | succ m ih =>
    intro k H
    have hfin : (fillLoop sym s₁ (m + 1) k).2 =
        (fillLoop sym s₁ m (RandomIndividual sym s₁ k).2).2 := rfl
    have hml := fillLoop_cursor_mono sym s₁ m (RandomIndividual sym s₁ k).2
    have hind : RandomIndividual sym s₁ k = RandomIndividual sym s₂ k :=
      agree_randomIndividual sym s₁ s₂ k (fun i hi => H i (by rw [hfin]; omega))
    have hrec := ih (RandomIndividual sym s₁ k).2
      (fun i hi => H i (by rw [hfin]; exact hi))
    simp only [fillLoop]
    rw [← hind, hrec]

theorem agree_stepGen (p : GAParams) (sym target : List Char)
    (gen : List Individual) (s₁ s₂ : RStream) (k : Nat)
    (H : ∀ i, i < (stepGen p sym target gen s₁ k).2 → s₁ i = s₂ i) :
    stepGen p sym target gen s₁ k = stepGen p sym target gen s₂ k := by
  have hfin : (stepGen p sym target gen s₁ k).2 =
      (fillLoop sym s₁
        (p.generationSize -
          (((RankIndividuals target gen).take p.eliteCount ++
              (crossLoop (RankIndividuals target gen) s₁ p.crossOverCount k).1) ++
            (mutLoop p sym
              ((RankIndividuals target gen).take p.eliteCount ++
                (crossLoop (RankIndividuals target gen) s₁ p.crossOverCount k).1) s₁
              p.mutatedCount
              (crossLoop (RankIndividuals target gen) s₁ p.crossOverCount k).2).1).length)
        (mutLoop p sym
          ((RankIndividuals target gen).take p.eliteCount ++
            (crossLoop (RankIndividuals target gen) s₁ p.crossOverCount k).1) s₁
          p.mutatedCount
          (crossLoop (RankIndividuals target gen) s₁ p.crossOverCount k).2).2).2 := rfl
  have hm1 := mutLoop_cursor_mono p sym
    ((RankIndividuals target gen).take p.eliteCount ++
      (crossLoop (RankIndividuals target gen) s₁ p.crossOverCount k).1) s₁
    p.mutatedCount (crossLoop (RankIndividuals target gen) s₁ p.crossOverCount k).2
  have hm2 := fillLoop_cursor_mono sym s₁
    (p.generationSize -
      (((RankIndividuals target gen).take p.eliteCount ++
          (crossLoop (RankIndividuals target gen) s₁ p.crossOverCount k).1) ++
        (mutLoop p sym
          ((RankIndividuals target gen).take p.eliteCount ++
            (crossLoop (RankIndividuals target gen) s₁ p.crossOverCount k).1) s₁
          p.mutatedCount
          (crossLoop (RankIndividuals target gen) s₁ p.crossOverCount k).2).1).length)
    (mutLoop p sym
      ((RankIndividuals target gen).take p.eliteCount ++
        (crossLoop (RankIndividuals target gen) s₁ p.crossOverCount k).1) s₁
      p.mutatedCount
      (crossLoop (RankIndividuals target gen) s₁ p.crossOverCount k).2).2
  have h1 : crossLoop (RankIndividuals target gen) s₁ p.crossOverCount k =
      crossLoop (RankIndividuals target gen) s₂ p.crossOverCount k :=
    agree_crossLoop (RankIndividuals target gen) s₁ s₂ p.crossOverCount k
      (fun i hi => H i (by rw [hfin]; omega))
  have h2 : mutLoop p sym
      ((RankIndividuals target gen).take p.eliteCount ++
        (crossLoop (RankIndividuals target gen) s₁ p.crossOverCount k).1) s₁
      p.mutatedCount (crossLoop (RankIndividuals target gen) s₁ p.crossOverCount k).2 =
      mutLoop p sym
      ((RankIndividuals target gen).take p.eliteCount ++
        (crossLoop (RankIndividuals target gen) s₁ p.crossOverCount k).1) s₂
      p.mutatedCount (crossLoop (RankIndividuals target gen) s₁ p.crossOverCount k).2 :=
    agree_mutLoop p sym _ s₁ s₂ p.mutatedCount _
      (fun i hi => H i (by rw [hfin]; omega))
  have h3 : fillLoop sym s₁
      (p.generationSize -
        (((RankIndividuals target gen).take p.eliteCount ++
            (crossLoop (RankIndividuals target gen) s₁ p.crossOverCount k).1) ++
          (mutLoop p sym
            ((RankIndividuals target gen).take p.eliteCount ++
              (crossLoop (RankIndividuals target gen) s₁ p.crossOverCount k).1) s₁
            p.mutatedCount
            (crossLoop (RankIndividuals target gen) s₁ p.crossOverCount k).2).1).length)
      (mutLoop p sym
        ((RankIndividuals target gen).take p.eliteCount ++
          (crossLoop (RankIndividuals target gen) s₁ p.crossOverCount k).1) s₁
        p.mutatedCount
        (crossLoop (RankIndividuals target gen) s₁ p.crossOverCount k).2).2 =
      fillLoop sym s₂
      (p.generationSize -
        (((RankIndividuals target gen).take p.eliteCount ++
            (crossLoop (RankIndividuals target gen) s₁ p.crossOverCount k).1) ++
          (mutLoop p sym
            ((RankIndividuals target gen).take p.eliteCount ++
              (crossLoop (RankIndividuals target gen) s₁ p.crossOverCount k).1) s₁
            p.mutatedCount
            (crossLoop (RankIndividuals target gen) s₁ p.crossOverCount k).2).1).length)
      (mutLoop p sym
        ((RankIndividuals target gen).take p.eliteCount ++
          (crossLoop (RankIndividuals target gen) s₁ p.crossOverCount k).1) s₁
        p.mutatedCount
        (crossLoop (RankIndividuals target gen) s₁ p.crossOverCount k).2).2 :=
    agree_fillLoop sym s₁ s₂ _ _ (fun i hi => H i (by rw [hfin]; exact hi))
  simp only [stepGen]
  rw [← h1, ← h2, ← h3]

theorem agree_runGA (p : GAParams) (sym target : List Char) (s₁ s₂ : RStream) :
    ∀ (n : Nat) (gen : List Individual) (k : Nat),
      (∀ i, i < (runGA p sym target n gen s₁ k).2 → s₁ i = s₂ i) →
      runGA p sym target n gen s₁ k = runGA p sym target n gen s₂ k := by
  intro n
  induction n with
  | zero => intro gen k _; rfl
  | succ m ih =>
    intro gen k H
    have hfin : (runGA p sym target (m + 1) gen s₁ k).2 =
        (runGA p sym target m (stepGen p sym target gen s₁ k).1 s₁
          (stepGen p sym target gen s₁ k).2).2 := rfl
    have hmr := runGA_cursor_mono p sym target m (stepGen p sym target gen s₁ k).1 s₁
      (stepGen p sym target gen s₁ k).2
    have hstep : stepGen p sym target gen s₁ k = stepGen p sym target gen s₂ k :=
      agree_stepGen p sym target gen s₁ s₂ k (fun i hi => H i (by rw [hfin]; omega))
    have hrec := ih (stepGen p sym target gen s₁ k).1 (stepGen p sym target gen s₁ k).2
      (fun i hi => H i (by rw [hfin]; exact hi))
    simp only [runGA]
    rw [← hstep, hrec]

/-- C8: a run of the driver is a deterministic function of the seeded
draw stream — the populations depend only on the raw draws the run
actually consumes (indices below the final cursor), which are taken
sequentially from the one generator.  Two runs with identical parameters
whose streams agree on that prefix are byte-identical. -/
theorem c8_deterministic_replay (p : GAParams) (sym target : List Char)
    (n : Nat) (gen : List Individual) (k : Nat) (s₁ s₂ : RStream)
    (H : ∀ i, i < (runGA p sym target n gen s₁ k).2 → s₁ i = s₂ i) :
    runGA p sym target n gen s₁ k = runGA p sym target n gen s₂ k :=
  agree_runGA p sym target s₁ s₂ n gen k H

/-- C8 witness: the two concrete streams differ from index 1000 on but
agree on the consumed prefix, and the one-generation runs coincide. -/
theorem c8_deterministic_replay_witness :
    (∀ i, i < (runGA c8Params allowedSymbols ['a'] 1 c1Gen c8Stream1 0).2 →
      c8Stream1 i = c8Stream2 i) ∧
    runGA c8Params allowedSymbols ['a'] 1 c1Gen c8Stream1 0 =
      runGA c8Params allowedSymbols ['a'] 1 c1Gen c8Stream2 0 :=
  ⟨by decide, c8_deterministic_replay c8Params allowedSymbols ['a'] 1 c1Gen 0
    c8Stream1 c8Stream2 (by decide)⟩

theorem perm_minimum_eq (l1 l2 : List ℚ) (h : l1.Perm l2) :
    l1.minimum = l2.minimum := by
  cases h1 : l1.minimum with
  | top =>
    rw [List.minimum_eq_top] at h1
    subst h1
    have h2 : l2 = [] := h.symm.eq_nil
    rw [h2]
    exact (List.minimum_eq_top.mpr rfl).symm
  | coe m =>
    rw [List.minimum_eq_coe_iff] at h1
    symm
    rw [List.minimum_eq_coe_iff]
    exact ⟨h.subset h1.1, fun a ha => h1.2 a (h.symm.subset ha)⟩

theorem rank_sorted (target : List Char) (gen : List Individual) :
    List.Sorted diffLE (RankIndividuals target gen) :=
  List.sorted_insertionSort diffLE _

theorem rank_member_diff (target : List Char) (gen : List Individual)
    (x : Individual) (hx : x ∈ RankIndividuals target gen) :
    x.diff = Evaluate target x.data := by
  unfold RankIndividuals at hx
  rw [List.mem_insertionSort] at hx
  rcases List.mem_map.mp hx with ⟨y, _, rfl⟩
  rfl

theorem rank_diffs_perm (target : List Char) (gen : List Individual) :
    ((RankIndividuals target gen).map Individual.diff).Perm
      (gen.map (fun i => Evaluate target i.data)) := by
  unfold RankIndividuals
  have hperm := List.perm_insertionSort diffLE
    (gen.map (fun ind => { ind with diff := Evaluate target ind.data }))
  have h2 := hperm.map Individual.diff
  rw [List.map_map] at h2
  exact h2

theorem bestEval_eq_rank_head (target : List Char) (gen : List Individual)
    (e : Individual) (t : List Individual)
    (h : RankIndividuals target gen = e :: t) :
    bestEval target gen = (e.diff : WithTop ℚ) := by
  have hperm := rank_diffs_perm target gen
  rw [h] at hperm
  unfold bestEval
  rw [← perm_minimum_eq _ _ hperm]
  have hsorted := rank_sorted target gen
  rw [h] at hsorted
  have hle : ∀ d ∈ t.map Individual.diff, e.diff ≤ d := by
    intro d hd
    rcases List.mem_map.mp hd with ⟨y, hy, rfl⟩
    exact List.rel_of_sorted_cons hsorted y hy
  rw [List.map_cons, List.minimum_cons]
  have h2 : (e.diff : WithTop ℚ) ≤ (t.map Individual.diff).minimum :=
    List.le_minimum_of_forall_le (fun a ha => WithTop.coe_le_coe.mpr (hle a ha))
  exact min_eq_left h2

theorem head_mem_stepGen (p : GAParams) (sym target : List Char)
    (gen : List Individual) (s : RStream) (k : Nat)
    (e : Individual) (t : List Individual)
    (h : RankIndividuals target gen = e :: t) (hE : 1 ≤ p.eliteCount) :
    e ∈ (stepGen p sym target gen s k).1 := by
  unfold stepGen
  apply List.mem_append_left
  apply List.mem_append_left
  rw [h]
  rcases Nat.exists_eq_add_of_le hE with ⟨m, hm⟩
  rw [hm, Nat.add_comm, List.take_succ_cons]
  exact List.mem_cons_self e _

theorem stepGen_bestEval_le (p : GAParams) (sym target : List Char)
    (gen : List Individual) (s : RStream) (k : Nat)
    (hE : 1 ≤ p.eliteCount) (hgen : gen ≠ []) :
    bestEval target (stepGen p sym target gen s k).1 ≤ bestEval target gen := by
  have hne : RankIndividuals target gen ≠ [] := by
    intro h0
    apply hgen
    have := length_rankIndividuals target gen
    rw [h0] at this
    exact List.length_eq_zero.mp this.symm
  rcases List.exists_cons_of_ne_nil hne with ⟨e, t, hrank⟩
  have hmem := head_mem_stepGen p sym target gen s k e t hrank hE
  have h1 : bestEval target (stepGen p sym target gen s k).1 ≤
      ((Evaluate target e.data : ℚ) : WithTop ℚ) := by
    unfold bestEval
    exact List.minimum_le_of_mem' (List.mem_map_of_mem _ hmem)
  have h2 : e.diff = Evaluate target e.data :=
    rank_member_diff target gen e (by rw [hrank]; exact List.mem_cons_self e t)
  rw [bestEval_eq_rank_head target gen e t hrank, h2]
  exact h1

theorem stepGen_ne_nil (p : GAParams) (sym target : List Char)
    (gen : List Individual) (s : RStream) (k : Nat)
    (hE : 1 ≤ p.eliteCount) (hgen : gen ≠ []) :
    (stepGen p sym target gen s k).1 ≠ [] := by
  have hne : RankIndividuals target gen ≠ [] := by
    intro h0
    apply hgen
    have := length_rankIndividuals target gen
    rw [h0] at this
    exact List.length_eq_zero.mp this.symm
  rcases List.exists_cons_of_ne_nil hne with ⟨e, t, hrank⟩
  exact List.ne_nil_of_mem (head_mem_stepGen p sym target gen s k e t hrank hE)

/-- C1: with at least one elite, the best fitness of the ranked
population never regresses: for every run of the driver, the smallest
`Evaluate` score of generation `N+1` is at most that of generation `N`,
because the ranked head is copied unchanged and re-evaluating it with the
deterministic `Evaluate` gives the same score. -/
theorem c1_best_diff_nonregression (p : GAParams) (sym target : List Char)
    (n : Nat) (gen : List Individual) (s : RStream) (k : Nat)
    (hE : 1 ≤ p.eliteCount) (hgen : gen ≠ []) :
    bestEval target (runGA p sym target (n + 1) gen s k).1 ≤
      bestEval target (runGA p sym target n gen s k).1 := by
  induction n generalizing gen k with
  | zero =>
    simpa [runGA] using stepGen_bestEval_le p sym target gen s k hE hgen
  | succ m ih =>
    have hne := stepGen_ne_nil p sym target gen s k hE hgen
    simpa [runGA] using ih (stepGen p sym target gen s k).1
      (stepGen p sym target gen s k).2 hne

/-- C1 witness: a singleton population with one elite. -/
theorem c1_best_diff_nonregression_witness :
    1 ≤ c1Params.eliteCount ∧ c1Gen ≠ [] ∧
      bestEval ['a'] (runGA c1Params allowedSymbols ['a'] 1 c1Gen c10Stream 0).1 ≤
        bestEval ['a'] (runGA c1Params allowedSymbols ['a'] 0 c1Gen c10Stream 0).1 :=
  ⟨by decide, by decide,
    c1_best_diff_nonregression c1Params allowedSymbols ['a'] 0 c1Gen c10Stream 0
      (by decide) (by decide)⟩
